import Mathlib

/-!
# OASist configuration / schema-preprocessing core: a verified model

The repository ships only the test suite of its core module (the module
`oasist.py` itself is absent from the sources), so every definition below is
modelled from the specification document: environment-variable substitution,
`ServiceConfig` validation, `SchemaProcessor.sanitize_security`, the
`ConfigLoader` failure modes, the temp-file lifecycle, and the JSON
serialization used when materializing a schema to a temporary file.
-/

namespace OASist

/-- Modelled from the spec: a parsed JSON/YAML document value (the shape of a
schema document or configuration document): null, booleans, integers, strings,
sequences and mappings (key order significant, as in Python dicts). -/
inductive Val where
  | vnull : Val
  | vbool (b : Bool) : Val
  | vint (n : Int) : Val
  | vstr (s : String) : Val
  | varr (xs : List Val) : Val
  | vobj (kvs : List (String × Val)) : Val


/-! ## Environment-variable substitution (spec §4.1)

Modelled from the spec: scan a string left to right for tokens of the form
`${NAME}` or `${NAME:default}`; a set variable (even empty) wins, otherwise the
default, otherwise the token is left verbatim.  The scanner is a small state
machine over the character list, equivalent to a single regex pass. -/
/-- An environment: maps a variable name to its value when set. -/
def EnvMap : Type := List Char → Option (List Char)


/-- The literal text of a token `${name}` / `${name:default}`. -/
def tokenText (n : List Char) (d : Option (List Char)) : List Char :=
  '$' :: '{' :: (n ++ (match d with | some dd => ':' :: dd | none => []) ++ ['}'])


/-- Modelled from the spec: the replacement for one token — the variable's
value when set (even to the empty string), else the default when present,
else the token itself, verbatim. -/
def resolveToken (env : EnvMap) (n : List Char) (d : Option (List Char)) : List Char :=
  match env n with
  | some v => v
  | none =>
    match d with
    | some dd => dd
    | none => tokenText n none


/-- Scanner state: outside any token; just after a `$`; inside the name part
(accumulated in reverse); inside the default part. -/
inductive ScanMode where
  | out : ScanMode
  | dollar : ScanMode
  | name (acc : List Char) : ScanMode
  | dflt (n acc : List Char) : ScanMode


/-- Modelled from the spec: the substitution scanner.  An unterminated token at
end of input is flushed back verbatim. -/
def subAux (env : EnvMap) : ScanMode → List Char → List Char
  | .out, [] => []
  | .out, c :: cs =>
    if c = '$' then subAux env .dollar cs else c :: subAux env .out cs
  | .dollar, [] => ['$']
  | .dollar, c :: cs =>
    if c = '{' then subAux env (.name []) cs
    else if c = '$' then '$' :: subAux env .dollar cs
    else '$' :: c :: subAux env .out cs
  | .name acc, [] => '$' :: '{' :: acc.reverse
  | .name acc, c :: cs =>
    if c = '}' then resolveToken env acc.reverse none ++ subAux env .out cs
    else if c = ':' then subAux env (.dflt acc []) cs
    else subAux env (.name (c :: acc)) cs
  | .dflt n acc, [] => '$' :: '{' :: (n.reverse ++ ':' :: acc.reverse)
  | .dflt n acc, c :: cs =>
    if c = '}' then resolveToken env n.reverse (some acc.reverse) ++ subAux env .out cs
    else subAux env (.dflt n (c :: acc)) cs


/-- Modelled from the spec: `substitute_env_vars` on a character list. -/
def subEnvChars (env : EnvMap) (cs : List Char) : List Char :=
  subAux env .out cs


/-- Modelled from the spec: `substitute_env_vars` — token substitution over a
string.  Total: never raises. -/
def substitute_env_vars (env : EnvMap) (s : String) : String :=
  ⟨subEnvChars env s.data⟩


/-! ### Decomposition of an input string into literal text and tokens

To state what substitution does to *each* token of an input, we describe inputs
as a list of segments (literal runs and `${...}` tokens) together with the
string such a list denotes; the correctness theorem relates the scanner's
output on the denoted string to per-segment substitution. -/
/-- A segment of an input string: a literal run, or one `${name}` /
`${name:default}` token. -/
inductive Seg where
  | lit (s : List Char) : Seg
  | tok (n : List Char) (d : Option (List Char)) : Seg


/-- The text a segment denotes in the input string. -/
def Seg.render : Seg → List Char
  | .lit s => s
  | .tok n d => tokenText n d


/-- The input string denoted by a segment list. -/
def renderSegs (segs : List Seg) : List Char :=
  (segs.map Seg.render).flatten


/-- Per-segment substitution: literals pass through; a token is replaced by the
variable's value when set, else its default when present, else kept verbatim. -/
def Seg.subst (env : EnvMap) : Seg → List Char
  | .lit s => s
  | .tok n d => resolveToken env n d


/-- The output of substituting every segment. -/
def substSegs (env : EnvMap) (segs : List Seg) : List Char :=
  (segs.map (Seg.subst env)).flatten


/-- Well-formed segment: a literal contains no `$` (so it starts no token), a
token's name contains neither `:` nor `}`, and its default contains no `}`. -/
def Seg.wf : Seg → Bool
  | .lit s => s.all (fun c => c != '$')
  | .tok n d =>
    n.all (fun c => c != ':' && c != '}') &&
      (match d with | some dd => dd.all (fun c => c != '}') | none => true)


/-- A segment the substitution leaves verbatim: a literal, or a default-less
token whose variable is unset. -/
def Seg.keepsVerbatim (env : EnvMap) : Seg → Bool
  | .lit _ => true
  | .tok n none => (env n).isNone
  | .tok _ (some _) => false


/-! ## Recursive substitution over documents (spec §4.1, recursive variant) -/
mutual

/-- Modelled from the spec: `substitute_recursive` — apply token substitution
to strings, to every value of a mapping (keys untouched), element-wise to
sequences; all other scalars pass through unchanged.  Pure: returns a new
structure, never mutating its argument. -/
def substitute_recursive (env : EnvMap) : Val → Val
  | .vnull => .vnull
  | .vbool b => .vbool b
  | .vint n => .vint n
  | .vstr s => .vstr (substitute_env_vars env s)
  | .varr xs => .varr (substList env xs)
  | .vobj kvs => .vobj (substPairs env kvs)

/-- Element-wise recursive substitution over a sequence. -/
def substList (env : EnvMap) : List Val → List Val
  | [] => []
  | x :: xs => substitute_recursive env x :: substList env xs

/-- Value-wise recursive substitution over a mapping's entries. -/
def substPairs (env : EnvMap) : List (String × Val) → List (String × Val)
  | [] => []
  | (k, v) :: kvs => (k, substitute_recursive env v) :: substPairs env kvs

end

mutual

/-- Fully-resolved content: no string anywhere contains a `$`, so no token can
remain and substitution has nothing left to do. -/
def Val.dollarFree : Val → Bool
  | .vnull => true
  | .vbool _ => true
  | .vint _ => true
  | .vstr s => s.data.all (fun c => c != '$')
  | .varr xs => dollarFreeList xs
  | .vobj kvs => dollarFreePairs kvs

/-- Specialization of `Val.dollarFree` to a sequence. -/
def dollarFreeList : List Val → Bool
  | [] => true
  | x :: xs => x.dollarFree && dollarFreeList xs

/-- Specialization of `Val.dollarFree` to a mapping's entries. -/
def dollarFreePairs : List (String × Val) → Bool
  | [] => true
  | (_, v) :: kvs => v.dollarFree && dollarFreePairs kvs

end

/-! ## ServiceConfig (spec §3, §4.2)

Modelled from the spec: a validated, immutable description of one generation
job.  Construction enforces, in order: non-empty (non-blank) name, non-empty
schema URL, `http` scheme, no `..` path segment in the output directory, and a
relative output directory; the first violated rule reports its error and no
config is produced. -/
/-- Whitespace, for the "empty or whitespace-only" name check. -/
def isSpaceChar (c : Char) : Bool :=
  c = ' ' || c = '\t' || c = '\n' || c = '\r'


/-- Empty or whitespace-only string. -/
def nameBlank (s : String) : Bool :=
  s.data.all isSpaceChar


/-- The URL scheme check: the string begins with `http` (hence also `https`). -/
def startsWithHttp (s : String) : Bool :=
  "http".data.isPrefixOf s.data


/-- Split a path into its `/`-separated segments. -/
def pathSegs : List Char → List (List Char)
  | [] => [[]]
  | c :: cs =>
    if c = '/' then [] :: pathSegs cs
    else
      match pathSegs cs with
      | [] => [[c]]
      | s :: ss => (c :: s) :: ss


/-- The path contains a parent-directory (`..`) segment. -/
def hasDotDotSeg (s : String) : Bool :=
  (pathSegs s.data).any (fun seg => seg == ['.', '.'])


/-- The path is absolute (begins with `/`). -/
def isAbsPath (s : String) : Bool :=
  match s.data with
  | '/' :: _ => true
  | _ => false


/-- Alphanumeric ASCII character. -/
def isAlnumChar (c : Char) : Bool :=
  let n := c.toNat
  (97 ≤ n && n ≤ 122) || (65 ≤ n && n ≤ 90) || (48 ≤ n && n ≤ 57)


/-- Collapse each run of underscores to a single underscore: an underscore
directly followed by another is dropped. -/
def squashUnders : List Char → List Char
  | [] => []
  | [c] => [c]
  | c :: c' :: cs =>
    if c = '_' && c' = '_' then squashUnders (c' :: cs)
    else c :: squashUnders (c' :: cs)


/-- Modelled from the spec: the package name derived from the display name —
lower-cased, runs of non-alphanumeric characters collapsed to an underscore. -/
def derivePackageName (name : String) : String :=
  ⟨squashUnders (name.data.map (fun c => if isAlnumChar c then c.toLower else '_'))⟩


/-- First index at which `pat` occurs as a contiguous sublist, if any. -/
def findSub : List Char → List Char → Option Nat
  | [], pat => if pat.isEmpty then some 0 else none
  | c :: cs, pat =>
    if pat.isPrefixOf (c :: cs) then some 0
    else (findSub cs pat).map (· + 1)


/-- The scheme+host portion of a URL: everything up to and including `://`,
then the host up to the next `/`. -/
def schemeHost (u : List Char) : List Char :=
  match findSub u "://".data with
  | some i => u.take (i + 3) ++ (u.drop (i + 3)).takeWhile (fun c => c != '/')
  | none => u


/-- Modelled from the spec: the base URL derived from the schema URL — when the
URL contains an `/api/` segment (a versioned `/api/v<N>/` contains one too),
everything before its first occurrence; otherwise the scheme+host portion. -/
def derive_base_url (url : String) : String :=
  match findSub url.data "/api/".data with
  | some i => ⟨url.data.take i⟩
  | none => ⟨schemeHost url.data⟩


/-- Modelled from the spec: one validated generation job. -/
structure ServiceConfig where
  name : String
  schema_url : String
  output_dir : String
  package_name : String
  base_url : String
deriving Repr, DecidableEq


/-- Modelled from the spec: `ServiceConfig` construction with its five
validation rules, checked in order; the first violated rule reports its
error and no config is produced. -/
def ServiceConfig.make (name schema_url output_dir : String) : Except String ServiceConfig :=
  if nameBlank name = true then .error "Service name cannot be empty"
  else if schema_url = "" then .error "Schema URL cannot be empty"
  else if startsWithHttp schema_url = false then .error "Schema URL must start with http(s)"
  else if hasDotDotSeg output_dir = true then .error "output_dir cannot contain '..'"
  else if isAbsPath output_dir = true then .error "output_dir must be relative"
  else .ok { name := name, schema_url := schema_url, output_dir := output_dir,
             package_name := derivePackageName name,
             base_url := derive_base_url schema_url }


/-! ## SchemaProcessor (spec §4.3)

Modelled from the spec: `sanitize_security` walks every operation object under
`paths.*.<method>`; an operation's `security` field that is a mapping is
converted to the conformant list-of-single-key-mappings form (empty scope
lists, key order preserved); a `security` field that is already a list is left
unchanged; everything else is untouched.  A new document is built. -/
/-- First-match lookup among a mapping's entries. -/
def lookupKey : List (String × Val) → String → Option Val
  | [], _ => none
  | (k', v) :: rest, k => if k' = k then some v else lookupKey rest k


/-- Field access: `lookupKey` on mappings, nothing on any other shape. -/
def getField (v : Val) (k : String) : Option Val :=
  match v with
  | .vobj kvs => lookupKey kvs k
  | _ => none


/-- Apply `f` to every value of a mapping (keys untouched); identity on any
other shape. -/
def mapValues (f : Val → Val) : Val → Val
  | .vobj kvs => .vobj (kvs.map (fun kv => (kv.1, f kv.2)))
  | v => v


/-- Apply `f` to the value at key `k` of a mapping (all entries with that key);
identity on any other shape. -/
def mapAtKey (k : String) (f : Val → Val) : Val → Val
  | .vobj kvs => .vobj (kvs.map (fun kv => (kv.1, if kv.1 = k then f kv.2 else kv.2)))
  | v => v


namespace SchemaProcessor


/-- Modelled from the spec: repair of one `security` field — a mapping becomes
a list with one single-key mapping per original key, each key mapped to an
empty scope list, key order preserved; a list (the conformant form) and any
other shape pass through unchanged. -/
def sanitizeSecurityField : Val → Val
  | .vobj kvs => .varr (kvs.map (fun kv => Val.vobj [(kv.1, Val.varr [])]))
  | v => v


/-- Modelled from the spec: `SchemaProcessor.sanitize_security` — apply the
`security` repair to every operation object under `paths.*.<method>`,
rebuilding the document. -/
def sanitize_security (schema : Val) : Val :=
  mapAtKey "paths" (mapValues (mapValues (mapAtKey "security" sanitizeSecurityField))) schema


end SchemaProcessor


/-- The `security` field of the operation at path `p`, method `m`. -/
def opSecurity (schema : Val) (p m : String) : Option Val :=
  (getField schema "paths").bind fun paths =>
    (getField paths p).bind fun item =>
      (getField item m).bind fun op => getField op "security"


/-! ## JSON serialization (spec §4.5: temp-file materialization)

Modelled from the spec: the sanitized document is written to the temporary
file as JSON (or YAML); the tests require that the JSON written for a document
parses back to an equal document.  We give a compact JSON renderer (no
whitespace, strings escaped) and a parser for it. -/
/-- Decimal digit character for `k < 10`. -/
def digitChar (k : Nat) : Char := Char.ofNat (48 + k % 10)


/-- Hexadecimal digit character for `k < 16` (lower case). -/
def hexChar (k : Nat) : Char :=
  if k < 10 then Char.ofNat (48 + k) else Char.ofNat (87 + k % 16)


/-- Numeric value of a decimal digit character (unspecified otherwise). -/
def charDigitVal (c : Char) : Nat := c.toNat - 48


/-- Numeric value of a lower-case hexadecimal digit character, when it is one. -/
def charHex (c : Char) : Option Nat :=
  let n := c.toNat
  if 48 ≤ n ∧ n ≤ 57 then some (n - 48)
  else if 97 ≤ n ∧ n ≤ 102 then some (n - 87)
  else none


/-- Decimal digit character test. -/
def isDigitChar (c : Char) : Bool := 48 ≤ c.toNat && c.toNat ≤ 57


/-- Decimal digit characters of `n`, most significant first, before `acc`. -/
def natCharsAux (n : Nat) (acc : List Char) : List Char :=
  if h : n < 10 then digitChar n :: acc
  else natCharsAux (n / 10) (digitChar (n % 10) :: acc)
termination_by n
decreasing_by
  exact Nat.div_lt_self (by omega) (by omega)


/-- Decimal digit characters of `n`. -/
def natChars (n : Nat) : List Char := natCharsAux n []


/-- Characters of an integer: optional minus sign, then decimal digits. -/
def intChars (i : Int) : List Char :=
  if i < 0 then '-' :: natChars i.natAbs else natChars i.natAbs


/-- JSON escape of one character: `"`, `\`, newline, tab, carriage return get
two-character escapes, other control characters a `\u00XY` escape, everything
else stands for itself. -/
def escapeChar (c : Char) : List Char :=
  if c = '"' then ['\\', '"']
  else if c = '\\' then ['\\', '\\']
  else if c = '\n' then ['\\', 'n']
  else if c = '\t' then ['\\', 't']
  else if c = '\r' then ['\\', 'r']
  else if c.toNat < 32 then
    ['\\', 'u', '0', '0', hexChar (c.toNat / 16), hexChar (c.toNat % 16)]
  else [c]


/-- JSON escape of a character list. -/
def escChars (cs : List Char) : List Char := (cs.map escapeChar).flatten


/-- A JSON string literal: quote, escaped characters, quote. -/
def renderStr (s : String) : List Char := '"' :: (escChars s.data ++ ['"'])


mutual

/-- Compact JSON rendering of a document (no whitespace). -/
def renderVal : Val → List Char
  | .vnull => ['n', 'u', 'l', 'l']
  | .vbool true => ['t', 'r', 'u', 'e']
  | .vbool false => ['f', 'a', 'l', 's', 'e']
  | .vint i => intChars i
  | .vstr s => renderStr s
  | .varr [] => ['[', ']']
  | .varr (x :: xs) => '[' :: (renderItems (x :: xs) ++ [']'])
  | .vobj [] => ['{', '}']
  | .vobj (kv :: kvs) => '{' :: (renderEntries (kv :: kvs) ++ ['}'])

/-- Comma-separated rendering of array elements. -/
def renderItems : List Val → List Char
  | [] => []
  | [x] => renderVal x
  | x :: y :: xs => renderVal x ++ ',' :: renderItems (y :: xs)

/-- Comma-separated rendering of object members. -/
def renderEntries : List (String × Val) → List Char
  | [] => []
  | [(k, v)] => renderStr k ++ ':' :: renderVal v
  | (k, v) :: e :: kvs => renderStr k ++ ':' :: renderVal v ++ ',' :: renderEntries (e :: kvs)

end

/-- Modelled from the spec: the JSON text written for a document. -/
def printJson (v : Val) : String := ⟨renderVal v⟩


/-- Modelled from the spec: the YAML text written for a document.  JSON is a
subset of YAML, so the flow-style rendering is valid YAML; nothing in the
claims constrains the YAML form beyond existence. -/
def printYaml (v : Val) : String := printJson v


/-- Longest digit run at the head of the input, and the rest. -/
def takeDigits : List Char → List Char × List Char
  | [] => ([], [])
  | c :: cs =>
    if isDigitChar c then
      let p := takeDigits cs
      (c :: p.1, p.2)
    else ([], c :: cs)


/-- Value of a digit run, most significant first. -/
def digitsVal (ds : List Char) : Nat :=
  ds.foldl (fun a c => a * 10 + charDigitVal c) 0


/-- Parse a natural number (one or more digits). -/
def pNat (cs : List Char) : Option (Nat × List Char) :=
  match takeDigits cs with
  | ([], _) => none
  | (ds, r) => some (digitsVal ds, r)


/-- Parse an integer: optional minus sign, then digits. -/
def pInt : List Char → Option (Int × List Char)
  | [] => none
  | c :: cs =>
    if c = '-' then (pNat cs).map (fun p => (-(p.1 : Int), p.2))
    else (pNat (c :: cs)).map (fun p => ((p.1 : Int), p.2))


/-- Inverse of the two-character escapes. -/
def unescChar (e : Char) : Option Char :=
  if e = 'n' then some '\n'
  else if e = 't' then some '\t'
  else if e = 'r' then some '\r'
  else if e = '"' || e = '\\' || e = '/' then some e
  else none


/-- Parse the body of a string literal after the opening quote; `acc` holds
the characters read so far, in reverse. -/
def pStrAux : List Char → List Char → Option (List Char × List Char)
  | _, [] => none
  | acc, '"' :: r => some (acc.reverse, r)
  | acc, '\\' :: 'u' :: a :: b :: x :: y :: r =>
    match charHex a, charHex b, charHex x, charHex y with
    | some va, some vb, some vx, some vy =>
      pStrAux (Char.ofNat (((va * 16 + vb) * 16 + vx) * 16 + vy) :: acc) r
    | _, _, _, _ => none
  | acc, '\\' :: e :: r =>
    match unescChar e with
    | some ec => pStrAux (ec :: acc) r
    | none => none
  | _, ['\\'] => none
  | acc, c :: r => pStrAux (c :: acc) r


mutual

/-- Fuel-indexed JSON value parser for the compact rendering. -/
def pVal : Nat → List Char → Option (Val × List Char)
  | 0, _ => none
  | f + 1, cs =>
    match cs with
    | 'n' :: 'u' :: 'l' :: 'l' :: r => some (.vnull, r)
    | 't' :: 'r' :: 'u' :: 'e' :: r => some (.vbool true, r)
    | 'f' :: 'a' :: 'l' :: 's' :: 'e' :: r => some (.vbool false, r)
    | '"' :: r => (pStrAux [] r).map (fun p => (.vstr ⟨p.1⟩, p.2))
    | '[' :: r =>
      if r.head? = some ']' then some (.varr [], r.tail)
      else (pItems f r).map (fun p => (.varr p.1, p.2))
    | '{' :: r =>
      if r.head? = some '}' then some (.vobj [], r.tail)
      else (pEntries f r).map (fun p => (.vobj p.1, p.2))
    | cs' => (pInt cs').map (fun p => (.vint p.1, p.2))

/-- Parse one-or-more comma-separated array elements up to the closing `]`. -/
def pItems : Nat → List Char → Option (List Val × List Char)
  | 0, _ => none
  | f + 1, cs =>
    match pVal f cs with
    | none => none
    | some (v, r) =>
      match r with
      | ',' :: r' =>
        match pItems f r' with
        | none => none
        | some (vs, r'') => some (v :: vs, r'')
      | ']' :: r' => some ([v], r')
      | _ => none

/-- Parse one-or-more comma-separated object members up to the closing `}`. -/
def pEntries : Nat → List Char → Option (List (String × Val) × List Char)
  | 0, _ => none
  | f + 1, cs =>
    match cs with
    | '"' :: r =>
      match pStrAux [] r with
      | none => none
      | some (k, r1) =>
        match r1 with
        | ':' :: r2 =>
          match pVal f r2 with
          | none => none
          | some (v, r3) =>
            match r3 with
            | ',' :: r4 =>
              match pEntries f r4 with
              | none => none
              | some (es, r5) => some ((⟨k⟩, v) :: es, r5)
            | '}' :: r4 => some ([(⟨k⟩, v)], r4)
            | _ => none
        | _ => none
    | _ => none

end

/-- Parse a complete JSON document (no trailing characters allowed). -/
def parseJson (s : String) : Option Val :=
  match pVal (s.data.length + 1) s.data with
  | some (v, []) => some v
  | _ => none


/-- The input does not begin with a digit (so a preceding number ends). -/
def noDigitStart : List Char → Bool
  | [] => true
  | c :: _ => !isDigitChar c


/-- Whether `t` is a suffix of `s`. -/
def strEndsWith (s t : String) : Bool := t.data.isSuffixOf s.data


mutual

/-- Fuel needed by `pVal` on the rendering of a value. -/
def szV : Val → Nat
  | .vnull => 1
  | .vbool _ => 1
  | .vint _ => 1
  | .vstr _ => 1
  | .varr xs => 1 + szL xs
  | .vobj kvs => 1 + szP kvs

/-- Fuel needed by `pItems` on rendered array elements. -/
def szL : List Val → Nat
  | [] => 0
  | x :: xs => 1 + szV x + szL xs

/-- Fuel needed by `pEntries` on rendered object members. -/
def szP : List (String × Val) → Nat
  | [] => 0
  | kv :: kvs => 1 + szV kv.2 + szP kvs

end

/-! ## Temp files, ClientGenerator and ConfigLoader (spec §4.4, §4.5, §5)

The filesystem is modelled as an association list of path/content pairs; the
`temp_file` context manager creates the file on entry and deletes it on every
exit path, exceptional or not. -/
/-- A filesystem snapshot: the files present, as path/content pairs. -/
abbrev FS : Type := List (String × String)


/-- The suffix the temp file gets: `.json` or `.yaml`. -/
def tempSuffix (asJson : Bool) : String := if asJson then ".json" else ".yaml"


/-- The temp file's path. -/
def temp_path (base : String) (asJson : Bool) : String := base ++ tempSuffix asJson


/-- The serialized document written into the temp file. -/
def serializeDoc (asJson : Bool) (v : Val) : String :=
  if asJson then printJson v else printYaml v


/-- Modelled from the spec: the filesystem as seen inside the `temp_file`
context — the temp file exists with the serialized content. -/
def temp_file_enter (base : String) (asJson : Bool) (v : Val) (fs : FS) : FS :=
  (temp_path base asJson, serializeDoc asJson v) :: fs


/-- Modelled from the spec: run `body` inside a `temp_file` context.  The body
returns an optional exception and the filesystem it leaves behind; the temp
file is deleted afterwards on both the normal and the exceptional path. -/
def temp_file_run (base : String) (asJson : Bool) (v : Val)
    (body : FS → Option String × FS) (fs : FS) : Option String × FS :=
  let res := body (temp_file_enter base asJson v fs)
  (res.1, res.2.filter (fun e => e.1 != temp_path base asJson))


/-- Lookup a path in the filesystem model. -/
def lookupFS : FS → String → Option String
  | [], _ => none
  | (p, c) :: rest, q => if p = q then some c else lookupFS rest q


/-- Modelled from the spec: the generator's job set — service key to config,
insertion order preserved. -/
structure ClientGenerator where
  services : List (String × ServiceConfig)


/-- The empty generator. -/
def ClientGenerator.empty : ClientGenerator := ⟨[]⟩


/-- First-match service lookup. -/
def lookupService : List (String × ServiceConfig) → String → Option ServiceConfig
  | [], _ => none
  | (k', c) :: rest, k => if k' = k then some c else lookupService rest k


/-- Modelled from the spec: `add_service` inserts or overwrites an entry. -/
def ClientGenerator.add_service (g : ClientGenerator) (key : String)
    (cfg : ServiceConfig) : ClientGenerator :=
  if (g.services.map Prod.fst).contains key then
    ⟨g.services.map (fun kc => if kc.1 = key then (kc.1, cfg) else kc)⟩
  else ⟨g.services ++ [(key, cfg)]⟩


/-- Modelled from the spec: `generate(key)`.  An absent key fails with no
side effects.  Otherwise the schema is fetched (an external collaborator),
sanitized, materialized to a temp file, and the external generator tool is
invoked inside the temp-file scope; tool failure is caught and reported as
`false`.  Returns the success flag, the (unchanged) job set and the resulting
filesystem. -/
def ClientGenerator.generate (fetch : String → Option Val)
    (invoke : String → ServiceConfig → FS → Option String × FS)
    (tmpBase : String) (g : ClientGenerator) (fs : FS) (key : String) :
    Bool × ClientGenerator × FS :=
  match lookupService g.services key with
  | none => (false, g, fs)
  | some cfg =>
    match fetch cfg.schema_url with
    | none => (false, g, fs)
    | some schema =>
      let clean := SchemaProcessor.sanitize_security schema
      let res := temp_file_run tmpBase true clean
        (fun fs1 => invoke (temp_path tmpBase true) cfg fs1) fs
      (res.1.isNone, g, res.2)


/-- A string field of a mapping, when present with that shape. -/
def getStrField (v : Val) (k : String) : Option String :=
  match getField v k with
  | some (.vstr s) => some s
  | _ => none


/-- Default output root joined with a project's own directory. -/
def joinDir (root d : String) : String :=
  if isAbsPath d = true then d
  else if root = "" then d else root ++ "/" ++ d


/-- Modelled from the spec: one `projects` entry becomes a `ServiceConfig` —
schema source from `input.target`, display name from `output.name` (defaulting
to the entry key), output directory from the global root joined with
`output.dir` (defaulting to the entry key). -/
def projectToConfig (root key : String) (pv : Val) : Except String ServiceConfig :=
  match (getField pv "input").bind (fun i => getField i "target") with
  | some (.vstr url) =>
    let outObj := getField pv "output"
    let dname := ((outObj.bind (fun o => getStrField o "name")).getD key)
    let odir := ((outObj.bind (fun o => getStrField o "dir")).getD key)
    ServiceConfig.make dname url (joinDir root odir)
  | _ => .error "missing input.target"


/-- Expand every `projects` entry, registering configs in order; the first
invalid entry aborts the load. -/
def expandProjects (root : String) (g : ClientGenerator) :
    List (String × Val) → Bool × ClientGenerator
  | [] => (true, g)
  | (k, pv) :: rest =>
    match projectToConfig root k pv with
    | .ok cfg => expandProjects root (g.add_service k cfg) rest
    | .error _ => (false, g)


/-- Expand a parsed, substituted configuration document. -/
def expandDoc (doc : Val) (g : ClientGenerator) : Bool × ClientGenerator :=
  match getField doc "projects" with
  | some (.vobj projs) =>
    expandProjects ((getStrField doc "output_dir").getD "") g projs
  | _ => (false, g)


/-- Modelled from the spec: `ConfigLoader.load`.  The file's content (if the
file exists) and the JSON/YAML parse are collaborator-supplied; a missing file
or unparseable content is a load failure that registers nothing.  On success
the document is recursively substituted and its `projects` expanded. -/
def ConfigLoader.load (env : EnvMap) (parse : String → Option Val)
    (content : Option String) (g : ClientGenerator) : Bool × ClientGenerator :=
  match content with
  | none => (false, g)
  | some text =>
    match parse text with
    | none => (false, g)
    | some doc => expandDoc (substitute_recursive env doc) g


/-! ## Lemmas and claim theorems -/

lemma subAux_out_cons (env : EnvMap) {c : Char} (h : c ≠ '$') (cs : List Char) :
    subAux env .out (c :: cs) = c :: subAux env .out cs := by
  simp [subAux, h]


lemma subAux_out_dollar (env : EnvMap) (cs : List Char) :
    subAux env .out ('$' :: cs) = subAux env .dollar cs := by
  simp [subAux]


lemma subAux_dollar_brace (env : EnvMap) (cs : List Char) :
    subAux env .dollar ('{' :: cs) = subAux env (.name []) cs := by
  simp [subAux]


lemma subAux_name_cons (env : EnvMap) {c : Char} (h1 : c ≠ '}') (h2 : c ≠ ':')
    (acc cs : List Char) :
    subAux env (.name acc) (c :: cs) = subAux env (.name (c :: acc)) cs := by
  simp [subAux, h1, h2]


lemma subAux_name_close (env : EnvMap) (acc cs : List Char) :
    subAux env (.name acc) ('}' :: cs)
      = resolveToken env acc.reverse none ++ subAux env .out cs := by
  simp [subAux]


lemma subAux_name_colon (env : EnvMap) (acc cs : List Char) :
    subAux env (.name acc) (':' :: cs) = subAux env (.dflt acc []) cs := by
  simp [subAux]


lemma subAux_dflt_cons (env : EnvMap) {c : Char} (h : c ≠ '}') (nm acc cs : List Char) :
    subAux env (.dflt nm acc) (c :: cs) = subAux env (.dflt nm (c :: acc)) cs := by
  simp [subAux, h]


lemma subAux_dflt_close (env : EnvMap) (nm acc cs : List Char) :
    subAux env (.dflt nm acc) ('}' :: cs)
      = resolveToken env nm.reverse (some acc.reverse) ++ subAux env .out cs := by
  simp [subAux]


lemma subAux_out_lit (env : EnvMap) :
    ∀ s : List Char, s.all (fun c => c != '$') = true →
      ∀ r, subAux env .out (s ++ r) = s ++ subAux env .out r := by
  intro s
  induction s with
  | nil => intro _ r; rfl
  | cons c cs ih =>
    intro h r
    simp only [List.all_cons, Bool.and_eq_true, bne_iff_ne, ne_eq] at h
    rw [List.cons_append, subAux_out_cons env h.1, ih (by simpa using h.2) r,
      List.cons_append]


lemma subAux_name_consume (env : EnvMap) :
    ∀ n : List Char, n.all (fun c => c != ':' && c != '}') = true →
      ∀ acc r, subAux env (.name acc) (n ++ r) = subAux env (.name (n.reverse ++ acc)) r := by
  intro n
  induction n with
  | nil => intro _ acc r; rfl
  | cons c cs ih =>
    intro h acc r
    simp only [List.all_cons, Bool.and_eq_true, bne_iff_ne, ne_eq] at h
    rw [List.cons_append, subAux_name_cons env h.1.2 h.1.1,
      ih (by simpa using h.2) (c :: acc) r]
    simp


lemma subAux_dflt_consume (env : EnvMap) :
    ∀ dd : List Char, dd.all (fun c => c != '}') = true →
      ∀ nm acc r, subAux env (.dflt nm acc) (dd ++ r) = subAux env (.dflt nm (dd.reverse ++ acc)) r := by
  intro dd
  induction dd with
  | nil => intro _ nm acc r; rfl
  | cons c cs ih =>
    intro h nm acc r
    simp only [List.all_cons, Bool.and_eq_true, bne_iff_ne, ne_eq] at h
    rw [List.cons_append, subAux_dflt_cons env h.1, ih (by simpa using h.2) nm (c :: acc) r]
    simp


lemma subAux_out_tok (env : EnvMap) (n : List Char) (d : Option (List Char))
    (hwf : (Seg.tok n d).wf = true) (r : List Char) :
    subAux env .out (tokenText n d ++ r) = resolveToken env n d ++ subAux env .out r := by
  simp only [Seg.wf, Bool.and_eq_true] at hwf
  have hn := hwf.1
  show subAux env .out (('$' :: '{' :: (n ++ _ ++ ['}'])) ++ r) = _
  rw [List.cons_append, List.cons_append, subAux_out_dollar, subAux_dollar_brace,
    List.append_assoc, List.append_assoc, subAux_name_consume env n hn]
  cases d with
  | none =>
    rw [List.nil_append, List.singleton_append, subAux_name_close]
    simp
  | some dd =>
    have hd : dd.all (fun c => c != '}') = true := by simpa using hwf.2
    rw [List.cons_append, subAux_name_colon, subAux_dflt_consume env dd hd,
      List.singleton_append, subAux_dflt_close]
    simp


lemma seg_keepsVerbatim_subst (env : EnvMap) (seg : Seg)
    (h : seg.keepsVerbatim env = true) : seg.subst env = seg.render := by
  cases seg with
  | lit s => rfl
  | tok n d =>
    cases d with
    | none =>
      simp only [Seg.keepsVerbatim, Option.isNone_iff_eq_none] at h
      simp [Seg.subst, Seg.render, resolveToken, h]
    | some dd => simp [Seg.keepsVerbatim] at h


/-- C2.  Token substitution, on an input made of literal runs and `${...}`
tokens, replaces each token by the variable's value when the variable is set,
else by the supplied default, else leaves the token verbatim; consequently an
input made only of literals and default-less tokens of unset variables is
returned unchanged.  The function is total, so no exception is possible. -/
theorem substitute_env_vars_spec (env : EnvMap) (segs : List Seg)
    (hwf : segs.all Seg.wf = true) :
    substitute_env_vars env ⟨renderSegs segs⟩ = ⟨substSegs env segs⟩
    ∧ (segs.all (Seg.keepsVerbatim env) = true →
        substitute_env_vars env ⟨renderSegs segs⟩ = ⟨renderSegs segs⟩) := by
  have main : subEnvChars env (renderSegs segs) = substSegs env segs := by
    induction segs with
    | nil => rfl
    | cons seg rest ih =>
      simp only [List.all_cons, Bool.and_eq_true] at hwf
      have hrest := ih hwf.2
      simp only [renderSegs, substSegs, List.map_cons, List.flatten_cons] at hrest ⊢
      cases seg with
      | lit s =>
        simp only [Seg.render, Seg.subst, subEnvChars] at hrest ⊢
        rw [subAux_out_lit env s hwf.1, hrest]
      | tok n d =>
        simp only [Seg.render, Seg.subst, subEnvChars] at hrest ⊢
        rw [subAux_out_tok env n d hwf.1, hrest]
  refine ⟨by simp [substitute_env_vars, main], fun hv => ?_⟩
  have : substSegs env segs = renderSegs segs := by
    simp only [List.all_eq_true] at hv
    simp only [substSegs, renderSegs]
    exact congrArg List.flatten (List.map_congr_left fun seg hs =>
      seg_keepsVerbatim_subst env seg (hv seg hs))
  simp [substitute_env_vars, main, this]


/-- Witness for C2: on `"URL is ${NONEXISTENT_VAR}"` with every variable unset,
substitution is the identity. -/
theorem substitute_env_vars_spec_witness :
    substitute_env_vars (fun _ => none)
        ⟨renderSegs [Seg.lit "URL is ".data, Seg.tok "NONEXISTENT_VAR".data none]⟩
      = ⟨renderSegs [Seg.lit "URL is ".data, Seg.tok "NONEXISTENT_VAR".data none]⟩ :=
  (substitute_env_vars_spec (fun _ => none)
    [Seg.lit "URL is ".data, Seg.tok "NONEXISTENT_VAR".data none]
    (by decide)).2 (by decide)


lemma subEnvChars_dollarFree (env : EnvMap) (s : List Char)
    (h : s.all (fun c => c != '$') = true) : subEnvChars env s = s := by
  have := subAux_out_lit env s h []
  simpa [subEnvChars, subAux] using this


mutual

lemma substVal_dollarFree (env : EnvMap) :
    ∀ v : Val, v.dollarFree = true → substitute_recursive env v = v
  | .vnull, _ => rfl
  | .vbool _, _ => rfl
  | .vint _, _ => rfl
  | .vstr s, h => by
    simp only [Val.dollarFree] at h
    simp only [substitute_recursive, substitute_env_vars,
      subEnvChars_dollarFree env s.data h]
  | .varr xs, h => by
    simp only [Val.dollarFree] at h
    simp only [substitute_recursive, substListFree env xs h]
  | .vobj kvs, h => by
    simp only [Val.dollarFree] at h
    simp only [substitute_recursive, substPairsFree env kvs h]

lemma substListFree (env : EnvMap) :
    ∀ xs : List Val, dollarFreeList xs = true → substList env xs = xs
  | [], _ => rfl
  | x :: xs, h => by
    simp only [dollarFreeList, Bool.and_eq_true] at h
    simp only [substList, substVal_dollarFree env x h.1, substListFree env xs h.2]

lemma substPairsFree (env : EnvMap) :
    ∀ kvs : List (String × Val), dollarFreePairs kvs = true → substPairs env kvs = kvs
  | [], _ => rfl
  | (k, v) :: kvs, h => by
    simp only [dollarFreePairs, Bool.and_eq_true] at h
    simp only [substPairs, substVal_dollarFree env v h.1, substPairsFree env kvs h.2]

end

lemma substPairs_eq_map (env : EnvMap) :
    ∀ kvs : List (String × Val),
      substPairs env kvs = kvs.map (fun kv => (kv.1, substitute_recursive env kv.2))
  | [] => rfl
  | (k, v) :: kvs => by simp [substPairs, substPairs_eq_map env kvs]


lemma substList_eq_map (env : EnvMap) :
    ∀ xs : List Val, substList env xs = xs.map (substitute_recursive env)
  | [] => rfl
  | x :: xs => by simp [substList, substList_eq_map env xs]


/-- C5.  Recursive substitution applies token substitution to strings, maps
over every value of a mapping (keys and their order untouched), maps
element-wise over sequences (order and length preserved), passes all other
scalars through unchanged, and is idempotent on fully-resolved content.  It is
a pure function — a new structure is returned and the input value is left as
it was. -/
theorem substitute_recursive_spec (env : EnvMap) :
    (∀ kvs, (substPairs env kvs).map Prod.fst = kvs.map Prod.fst)
    ∧ (∀ kvs, substitute_recursive env (.vobj kvs)
        = .vobj (kvs.map (fun kv => (kv.1, substitute_recursive env kv.2))))
    ∧ (∀ xs, substitute_recursive env (.varr xs)
        = .varr (xs.map (substitute_recursive env)))
    ∧ (∀ s, substitute_recursive env (.vstr s) = .vstr (substitute_env_vars env s))
    ∧ (∀ n, substitute_recursive env (.vint n) = .vint n)
    ∧ (∀ b, substitute_recursive env (.vbool b) = .vbool b)
    ∧ substitute_recursive env .vnull = .vnull
    ∧ (∀ v, v.dollarFree = true →
        substitute_recursive env (substitute_recursive env v) = substitute_recursive env v) := by
  refine ⟨fun kvs => ?_, fun kvs => ?_, fun xs => ?_, fun _ => rfl, fun _ => rfl,
    fun _ => rfl, rfl, fun v hv => ?_⟩
  · rw [substPairs_eq_map]; simp
  · simp [substitute_recursive, substPairs_eq_map]
  · simp [substitute_recursive, substList_eq_map]
  · simp only [substVal_dollarFree env v hv]


/-- Witness for C5: idempotence at a concrete resolved document. -/
theorem substitute_recursive_spec_witness :
    substitute_recursive (fun _ => none)
        (substitute_recursive (fun _ => none)
          (Val.vobj [("url", Val.vstr "http://localhost/api"), ("port", Val.vint 8080)]))
      = substitute_recursive (fun _ => none)
          (Val.vobj [("url", Val.vstr "http://localhost/api"), ("port", Val.vint 8080)]) :=
  (substitute_recursive_spec (fun _ => none)).2.2.2.2.2.2.2
    (Val.vobj [("url", Val.vstr "http://localhost/api"), ("port", Val.vint 8080)])
    (by decide)


lemma make_ok_inv {n u d : String} {cfg : ServiceConfig}
    (h : ServiceConfig.make n u d = .ok cfg) :
    cfg = { name := n, schema_url := u, output_dir := d,
            package_name := derivePackageName n, base_url := derive_base_url u }
    ∧ nameBlank n = false ∧ u ≠ "" ∧ startsWithHttp u = true
    ∧ hasDotDotSeg d = false ∧ isAbsPath d = false := by
  by_cases h1 : nameBlank n = true
  · simp [ServiceConfig.make, h1] at h
  by_cases h2 : u = ""
  · simp [ServiceConfig.make, h1, h2] at h
  by_cases h3 : startsWithHttp u = false
  · simp [ServiceConfig.make, h1, h2, h3] at h
  by_cases h4 : hasDotDotSeg d = true
  · simp [ServiceConfig.make, h1, h2, h3, h4] at h
  by_cases h5 : isAbsPath d = true
  · simp [ServiceConfig.make, h1, h2, h3, h4, h5] at h
  refine ⟨?_, by simpa using h1, h2, by simpa using h3, by simpa using h4,
    by simpa using h5⟩
  rw [ServiceConfig.make, if_neg h1, if_neg h2, if_neg h3, if_neg h4, if_neg h5] at h
  exact (Except.ok.inj h).symm


/-- C3.  `ServiceConfig` construction enforces its five validation rules in
order — blank name, empty schema URL, non-`http` scheme, `..` segment in the
output directory, absolute output directory — raising the stated message for
the first rule violated; a config value is produced only when every rule
passes, and then carries exactly the given fields (never partially
constructed). -/
theorem service_config_validation_spec (n u d : String) :
    (nameBlank n = true → ServiceConfig.make n u d = .error "Service name cannot be empty")
    ∧ (nameBlank n = false → u = "" →
        ServiceConfig.make n u d = .error "Schema URL cannot be empty")
    ∧ (nameBlank n = false → u ≠ "" → startsWithHttp u = false →
        ServiceConfig.make n u d = .error "Schema URL must start with http(s)")
    ∧ (nameBlank n = false → u ≠ "" → startsWithHttp u = true → hasDotDotSeg d = true →
        ServiceConfig.make n u d = .error "output_dir cannot contain '..'")
    ∧ (nameBlank n = false → u ≠ "" → startsWithHttp u = true → hasDotDotSeg d = false →
        isAbsPath d = true → ServiceConfig.make n u d = .error "output_dir must be relative")
    ∧ (∀ cfg, ServiceConfig.make n u d = .ok cfg →
        nameBlank n = false ∧ u ≠ "" ∧ startsWithHttp u = true ∧ hasDotDotSeg d = false
          ∧ isAbsPath d = false ∧ cfg.name = n ∧ cfg.schema_url = u ∧ cfg.output_dir = d) := by
  refine ⟨fun h1 => by simp [ServiceConfig.make, h1],
    fun h1 h2 => by simp [ServiceConfig.make, h1, h2],
    fun h1 h2 h3 => by simp [ServiceConfig.make, h1, h2, h3],
    fun h1 h2 h3 h4 => by simp [ServiceConfig.make, h1, h2, h3, h4],
    fun h1 h2 h3 h4 h5 => by simp [ServiceConfig.make, h1, h2, h3, h4, h5],
    fun cfg h => ?_⟩
  obtain ⟨hcfg, hrest⟩ := make_ok_inv h
  subst hcfg
  exact ⟨hrest.1, hrest.2.1, hrest.2.2.1, hrest.2.2.2.1, hrest.2.2.2.2, rfl, rfl, rfl⟩


/-- Witness for C3: the five failing example constructions from the spec. -/
theorem service_config_validation_spec_witness :
    ServiceConfig.make "" "http://x/api" "out" = .error "Service name cannot be empty"
    ∧ ServiceConfig.make "A" "" "out" = .error "Schema URL cannot be empty"
    ∧ ServiceConfig.make "A" "ftp://x" "out" = .error "Schema URL must start with http(s)"
    ∧ ServiceConfig.make "A" "http://x/api" "../etc" = .error "output_dir cannot contain '..'"
    ∧ ServiceConfig.make "A" "http://x/api" "/etc" = .error "output_dir must be relative" :=
  ⟨(service_config_validation_spec "" "http://x/api" "out").1 (by decide),
    (service_config_validation_spec "A" "" "out").2.1 (by decide) rfl,
    (service_config_validation_spec "A" "ftp://x" "out").2.2.1 (by decide) (by decide)
      (by decide),
    (service_config_validation_spec "A" "http://x/api" "../etc").2.2.2.1 (by decide)
      (by decide) (by decide) (by decide),
    (service_config_validation_spec "A" "http://x/api" "/etc").2.2.2.2.1 (by decide)
      (by decide) (by decide) (by decide) (by decide)⟩


/-- C4.  For every successfully constructed config, `base_url` is derived from
the schema URL by the `/api/` heuristic: the text before the first `/api/`
occurrence when there is one, otherwise the scheme+host portion; on the spec's
example URL the result is `http://example.com`. -/
theorem base_url_spec :
    (∀ n u d cfg, ServiceConfig.make n u d = .ok cfg →
        cfg.base_url = derive_base_url u
        ∧ (∀ i, findSub u.data "/api/".data = some i → cfg.base_url = ⟨u.data.take i⟩)
        ∧ (findSub u.data "/api/".data = none → cfg.base_url = ⟨schemeHost u.data⟩))
    ∧ (ServiceConfig.make "Test Service" "http://example.com/api/v1/openapi.json" "out").map
        (fun cfg => cfg.base_url) = .ok "http://example.com" := by
  constructor
  · intro n u d cfg h
    obtain ⟨hcfg, -⟩ := make_ok_inv h
    subst hcfg
    refine ⟨rfl, fun i hi => ?_, fun hn => ?_⟩
    · simp [derive_base_url, hi]
    · simp [derive_base_url, hn]
  · rfl


/-- Witness for C4: the `/api/` heuristic instantiated at the spec's example. -/
theorem base_url_spec_witness :
    ({ name := "Test Service", schema_url := "http://example.com/api/v1/openapi.json",
       output_dir := "out", package_name := "test_service",
       base_url := "http://example.com" } : ServiceConfig).base_url
      = derive_base_url "http://example.com/api/v1/openapi.json" :=
  (base_url_spec.1 "Test Service" "http://example.com/api/v1/openapi.json" "out"
    _ (by rfl)).1


lemma lookupKey_map (g : String → Val → Val) :
    ∀ (kvs : List (String × Val)) (k : String),
      lookupKey (kvs.map (fun kv => (kv.1, g kv.1 kv.2))) k = (lookupKey kvs k).map (g k)
  | [], _ => rfl
  | (k', v) :: rest, k => by
    by_cases h : k' = k
    · subst h; simp [lookupKey]
    · simp only [List.map_cons, lookupKey, if_neg h]
      exact lookupKey_map g rest k


lemma getField_mapValues (f : Val → Val) (v : Val) (k : String) :
    getField (mapValues f v) k = (getField v k).map f := by
  cases v <;> simp only [getField, mapValues, Option.map_none']
  case vobj kvs => exact lookupKey_map (fun _ x => f x) kvs k


lemma getField_mapAtKey (f : Val → Val) (v : Val) (k : String) :
    getField (mapAtKey k f v) k = (getField v k).map f := by
  cases v <;> simp only [getField, mapAtKey, Option.map_none']
  case vobj kvs =>
    have h := lookupKey_map (fun k' x => if k' = k then f x else x) kvs k
    simpa using h


lemma opSecurity_sanitize (schema : Val) (p m : String) :
    opSecurity (SchemaProcessor.sanitize_security schema) p m
      = (opSecurity schema p m).map SchemaProcessor.sanitizeSecurityField := by
  unfold opSecurity SchemaProcessor.sanitize_security
  rw [getField_mapAtKey]
  cases hp : getField schema "paths" with
  | none => rfl
  | some paths =>
    simp only [Option.map_some', Option.some_bind]
    rw [getField_mapValues]
    cases hq : getField paths p with
    | none => rfl
    | some item =>
      simp only [Option.map_some', Option.some_bind]
      rw [getField_mapValues]
      cases hr : getField item m with
      | none => rfl
      | some op =>
        simp only [Option.map_some', Option.some_bind]
        rw [getField_mapAtKey]


lemma sanitizeSecurityField_idem (v : Val) :
    SchemaProcessor.sanitizeSecurityField (SchemaProcessor.sanitizeSecurityField v)
      = SchemaProcessor.sanitizeSecurityField v := by
  cases v <;> rfl


lemma mapValues_comp (f g : Val → Val) (v : Val) :
    mapValues f (mapValues g v) = mapValues (fun x => f (g x)) v := by
  cases v <;> simp [mapValues, List.map_map, Function.comp]


lemma mapAtKey_comp (k : String) (f g : Val → Val) (v : Val) :
    mapAtKey k f (mapAtKey k g v) = mapAtKey k (fun x => f (g x)) v := by
  cases v <;> simp only [mapAtKey, List.map_map]
  case vobj kvs =>
    congr 1
    apply List.map_congr_left
    intro kv _
    by_cases h : kv.1 = k <;> simp [Function.comp, h]


lemma mapValues_congr {f g : Val → Val} (h : ∀ x, f x = g x) (v : Val) :
    mapValues f v = mapValues g v := by
  cases v <;> simp [mapValues, h]


lemma mapAtKey_congr (k : String) {f g : Val → Val} (h : ∀ x, f x = g x) (v : Val) :
    mapAtKey k f v = mapAtKey k g v := by
  cases v <;> simp [mapAtKey, h]


lemma sanitize_security_idem (schema : Val) :
    SchemaProcessor.sanitize_security (SchemaProcessor.sanitize_security schema)
      = SchemaProcessor.sanitize_security schema := by
  unfold SchemaProcessor.sanitize_security
  rw [mapAtKey_comp]
  apply mapAtKey_congr
  intro paths
  rw [mapValues_comp]
  apply mapValues_congr
  intro item
  rw [mapValues_comp]
  apply mapValues_congr
  intro op
  rw [mapAtKey_comp]
  apply mapAtKey_congr
  intro sec
  exact sanitizeSecurityField_idem sec


/-- C1.  `sanitize_security` turns every mapping-valued `security` field of an
operation under `paths.*.<method>` into a list with one single-key mapping per
original key, each key mapped to an empty scope list, in the original key
order; a list-valued `security` field is left unchanged; and the whole
operation is idempotent. -/
theorem sanitize_security_spec :
    (∀ schema p m kvs, opSecurity schema p m = some (.vobj kvs) →
        opSecurity (SchemaProcessor.sanitize_security schema) p m
          = some (.varr (kvs.map (fun kv => Val.vobj [(kv.1, Val.varr [])]))))
    ∧ (∀ schema p m l, opSecurity schema p m = some (.varr l) →
        opSecurity (SchemaProcessor.sanitize_security schema) p m = some (.varr l))
    ∧ (∀ schema, SchemaProcessor.sanitize_security (SchemaProcessor.sanitize_security schema)
        = SchemaProcessor.sanitize_security schema) := by
  refine ⟨fun schema p m kvs h => ?_, fun schema p m l h => ?_, sanitize_security_idem⟩
  · rw [opSecurity_sanitize, h]; rfl
  · rw [opSecurity_sanitize, h]; rfl


/-- Witness for C1: the test schema with `security = {"bearer": {}, "api_key": {}}`
is repaired to the two-element list form, order preserved. -/
theorem sanitize_security_spec_witness :
    opSecurity
        (SchemaProcessor.sanitize_security
          (Val.vobj [("paths", Val.vobj [("/test", Val.vobj [("get",
            Val.vobj [("security",
              Val.vobj [("bearer", Val.vobj []), ("api_key", Val.vobj [])])])])])]))
        "/test" "get"
      = some (Val.varr [Val.vobj [("bearer", Val.varr [])],
          Val.vobj [("api_key", Val.varr [])]]) :=
  sanitize_security_spec.1
    (Val.vobj [("paths", Val.vobj [("/test", Val.vobj [("get",
      Val.vobj [("security",
        Val.vobj [("bearer", Val.vobj []), ("api_key", Val.vobj [])])])])])])
    "/test" "get" [("bearer", Val.vobj []), ("api_key", Val.vobj [])] rfl


/-- C6.  `ConfigLoader.load` returns failure — it does not raise — when the
configuration file is missing or its content does not parse, and in both
cases registers nothing: the generator is returned unchanged, and an initially
empty job set stays empty. -/
theorem config_loader_failure_spec (env : EnvMap) (parse : String → Option Val)
    (g : ClientGenerator) :
    ConfigLoader.load env parse none g = (false, g)
    ∧ (∀ s, parse s = none → ConfigLoader.load env parse (some s) g = (false, g))
    ∧ (ConfigLoader.load env parse none ClientGenerator.empty).2.services = [] := by
  refine ⟨rfl, fun s h => ?_, rfl⟩
  simp [ConfigLoader.load, h]


/-- Witness for C6: unparseable content `"not parseable json"` is a failure that
leaves the empty generator untouched. -/
theorem config_loader_failure_spec_witness :
    ConfigLoader.load (fun _ => none) (fun _ => none) (some "not parseable json")
        ClientGenerator.empty
      = (false, ClientGenerator.empty) :=
  (config_loader_failure_spec (fun _ => none) (fun _ => none)
    ClientGenerator.empty).2.1 "not parseable json" rfl


/-- C7.  The temporary schema file is gone after the `temp_file` scope exits,
whatever the body did — including when it reports an exception — and hence
after any generation attempt the temp path is absent from the filesystem
(given it was not a pre-existing file), on success and on every error path. -/
theorem temp_file_cleanup_spec :
    (∀ base asJson v body fs,
        ((temp_file_run base asJson v body fs).2.all
          (fun e => e.1 != temp_path base asJson)) = true)
    ∧ (∀ fetch invoke tmpBase g fs key,
        fs.all (fun e => e.1 != temp_path tmpBase true) = true →
        ((ClientGenerator.generate fetch invoke tmpBase g fs key).2.2.all
          (fun e => e.1 != temp_path tmpBase true)) = true) := by
  have hfil : ∀ base asJson v body fs,
      ((temp_file_run base asJson v body fs).2.all
        (fun e => e.1 != temp_path base asJson)) = true := by
    intro base asJson v body fs
    rw [List.all_eq_true]
    intro e he
    exact (List.mem_filter.mp he).2
  refine ⟨hfil, fun fetch invoke tmpBase g fs key h => ?_⟩
  unfold ClientGenerator.generate
  split
  · simpa using h
  · split
    · simpa using h
    · exact hfil tmpBase true _ _ fs


/-- Witness for C7: a generation attempt on an empty filesystem leaves no file
at the temp path. -/
theorem temp_file_cleanup_spec_witness :
    ((ClientGenerator.generate (fun _ => none) (fun _ _ fs => (none, fs)) "tmp"
        ClientGenerator.empty [] "svc").2.2.all
      (fun e => e.1 != temp_path "tmp" true)) = true :=
  temp_file_cleanup_spec.2 (fun _ => none) (fun _ _ fs => (none, fs)) "tmp"
    ClientGenerator.empty [] "svc" rfl


/-- C8.  `generate` on a key absent from the job set returns failure and has
no effects: the job set and the filesystem are returned unchanged. -/
theorem generate_missing_key_spec (fetch : String → Option Val)
    (invoke : String → ServiceConfig → FS → Option String × FS)
    (tmpBase : String) (g : ClientGenerator) (fs : FS) (key : String)
    (h : lookupService g.services key = none) :
    ClientGenerator.generate fetch invoke tmpBase g fs key = (false, g, fs) := by
  simp [ClientGenerator.generate, h]


/-- Witness for C8: generating `"nonexistent"` from an empty job set fails
with nothing changed. -/
theorem generate_missing_key_spec_witness :
    ClientGenerator.generate (fun _ => none) (fun _ _ fs => (none, fs)) "tmp"
        ClientGenerator.empty [] "nonexistent"
      = (false, ClientGenerator.empty, []) :=
  generate_missing_key_spec (fun _ => none) (fun _ _ fs => (none, fs)) "tmp"
    ClientGenerator.empty [] "nonexistent" rfl


/-! ### Round-trip of the JSON codec -/
lemma digitChar_round : ∀ k, k < 10 →
    charDigitVal (digitChar k) = k ∧ isDigitChar (digitChar k) = true := by decide


lemma hexChar_round : ∀ k, k < 16 → charHex (hexChar k) = some k := by decide


lemma natCharsAux_acc (n : Nat) : ∀ acc, natCharsAux n acc = natCharsAux n [] ++ acc := by
  induction n using Nat.strong_induction_on with
  | _ n ih =>
    intro acc
    conv_lhs => rw [natCharsAux]
    conv_rhs => rw [natCharsAux]
    by_cases h : n < 10
    · simp [h]
    · rw [dif_neg h, dif_neg h,
        ih (n / 10) (Nat.div_lt_self (by omega) (by omega)) (digitChar (n % 10) :: acc),
        ih (n / 10) (Nat.div_lt_self (by omega) (by omega)) [digitChar (n % 10)]]
      simp


lemma natChars_eq (n : Nat) :
    natChars n = if n < 10 then [digitChar n]
      else natChars (n / 10) ++ [digitChar (n % 10)] := by
  unfold natChars
  rw [natCharsAux]
  by_cases h : n < 10
  · simp [h]
  · rw [dif_neg h, if_neg h]
    exact natCharsAux_acc (n / 10) [digitChar (n % 10)]


lemma natChars_digits (n : Nat) : (natChars n).all isDigitChar = true := by
  induction n using Nat.strong_induction_on with
  | _ n ih =>
    rw [natChars_eq]
    by_cases h : n < 10
    · simp [h, (digitChar_round n h).2]
    · have hx := ih (n / 10) (Nat.div_lt_self (by omega) (by omega))
      simp [h, hx, (digitChar_round (n % 10) (by omega)).2]


lemma natChars_ne_nil (n : Nat) : natChars n ≠ [] := by
  rw [natChars_eq]
  by_cases h : n < 10 <;> simp [h]


lemma digitsVal_append_digit (xs : List Char) (d : Char) :
    digitsVal (xs ++ [d]) = digitsVal xs * 10 + charDigitVal d := by
  simp [digitsVal, List.foldl_append]


lemma digitsVal_natChars (n : Nat) : digitsVal (natChars n) = n := by
  induction n using Nat.strong_induction_on with
  | _ n ih =>
    rw [natChars_eq]
    by_cases h : n < 10
    · simp [h, digitsVal, (digitChar_round n h).1]
    · rw [if_neg h, digitsVal_append_digit,
        ih (n / 10) (Nat.div_lt_self (by omega) (by omega)),
        (digitChar_round (n % 10) (by omega)).1]
      omega


lemma takeDigits_split :
    ∀ ds, ds.all isDigitChar = true → ∀ r, noDigitStart r = true →
      takeDigits (ds ++ r) = (ds, r)
  | [], _, r, hr => by
    cases r with
    | nil => rfl
    | cons c cs =>
      simp only [noDigitStart, Bool.not_eq_true'] at hr
      simp [takeDigits, hr]
  | d :: ds, h, r, hr => by
    simp only [List.all_cons, Bool.and_eq_true] at h
    simp [takeDigits, h.1, takeDigits_split ds h.2 r hr]


lemma pNat_natChars (n : Nat) (r : List Char) (hr : noDigitStart r = true) :
    pNat (natChars n ++ r) = some (n, r) := by
  unfold pNat
  rw [takeDigits_split (natChars n) (natChars_digits n) r hr]
  cases hnc : natChars n with
  | nil => exact absurd hnc (natChars_ne_nil n)
  | cons d ds =>
    show some (digitsVal (d :: ds), r) = some (n, r)
    rw [← hnc, digitsVal_natChars]


lemma pInt_neg_natChars (m : Nat) (r : List Char) (hr : noDigitStart r = true) :
    pInt ('-' :: (natChars m ++ r)) = some (-(m : Int), r) := by
  simp [pInt, pNat_natChars m r hr]


lemma pInt_natChars (m : Nat) (r : List Char) (hr : noDigitStart r = true) :
    pInt (natChars m ++ r) = some ((m : Int), r) := by
  cases hnc : natChars m with
  | nil => exact absurd hnc (natChars_ne_nil m)
  | cons d ds =>
    have hd : isDigitChar d = true := by
      have hx := natChars_digits m
      rw [hnc] at hx
      simp only [List.all_cons, Bool.and_eq_true] at hx
      exact hx.1
    have hdm : d ≠ '-' := by
      intro hcontra
      rw [hcontra] at hd
      exact absurd hd (by decide)
    rw [List.cons_append]
    simp only [pInt, if_neg hdm]
    rw [← List.cons_append, ← hnc, pNat_natChars m r hr]
    simp


lemma pInt_intChars (i : Int) (r : List Char) (hr : noDigitStart r = true) :
    pInt (intChars i ++ r) = some (i, r) := by
  unfold intChars
  by_cases hneg : i < 0
  · rw [if_pos hneg, List.cons_append, pInt_neg_natChars i.natAbs r hr]
    congr 1
    rw [Prod.mk.injEq]
    refine ⟨?_, rfl⟩
    omega
  · rw [if_neg hneg, pInt_natChars i.natAbs r hr]
    congr 1
    rw [Prod.mk.injEq]
    refine ⟨?_, rfl⟩
    omega


lemma pStrAux_escape (c : Char) (acc t : List Char) :
    pStrAux acc (escapeChar c ++ t) = pStrAux (c :: acc) t := by
  unfold escapeChar
  by_cases h1 : c = '"'
  · subst h1; simp [pStrAux, unescChar]
  rw [if_neg h1]
  by_cases h2 : c = '\\'
  · subst h2; simp [pStrAux, unescChar]
  rw [if_neg h2]
  by_cases h3 : c = '\n'
  · subst h3; simp [pStrAux, unescChar]
  rw [if_neg h3]
  by_cases h4 : c = '\t'
  · subst h4; simp [pStrAux, unescChar]
  rw [if_neg h4]
  by_cases h5 : c = '\r'
  · subst h5; simp [pStrAux, unescChar]
  rw [if_neg h5]
  by_cases h6 : c.toNat < 32
  · rw [if_pos h6]
    have hx : charHex (hexChar (c.toNat / 16)) = some (c.toNat / 16) :=
      hexChar_round _ (by omega)
    have hy : charHex (hexChar (c.toNat % 16)) = some (c.toNat % 16) :=
      hexChar_round _ (by omega)
    have h0 : charHex '0' = some 0 := rfl
    show pStrAux acc ('\\' :: 'u' :: '0' :: '0' :: hexChar (c.toNat / 16)
        :: hexChar (c.toNat % 16) :: t) = pStrAux (c :: acc) t
    simp only [pStrAux, h0, hx, hy]
    have hval : (((0 * 16 + 0) * 16 + c.toNat / 16) * 16 + c.toNat % 16) = c.toNat := by
      omega
    rw [hval, Char.ofNat_toNat]
  · rw [if_neg h6]
    show pStrAux acc (c :: t) = pStrAux (c :: acc) t
    simp [pStrAux, h1, h2]


lemma pStrAux_escChars :
    ∀ (cs acc r : List Char),
      pStrAux acc (escChars cs ++ '"' :: r) = some (acc.reverse ++ cs, r)
  | [], acc, r => by simp [escChars, pStrAux]
  | c :: cs, acc, r => by
    have hesc : escChars (c :: cs) = escapeChar c ++ escChars cs := by
      simp [escChars]
    rw [hesc, List.append_assoc, pStrAux_escape, pStrAux_escChars cs (c :: acc) r]
    simp


lemma pStr_renderStr (s : String) (r : List Char) :
    pStrAux [] (escChars s.data ++ '"' :: r) = some (s.data, r) := by
  rw [pStrAux_escChars]
  rfl


lemma intChars_ne_nil (i : Int) : intChars i ≠ [] := by
  unfold intChars
  by_cases h : i < 0
  · simp [h]
  · simp only [if_neg h]
    exact natChars_ne_nil i.natAbs


lemma szV_pos (v : Val) : 1 ≤ szV v := by
  cases v <;> simp [szV]


lemma szL_pos (xs : List Val) (h : xs ≠ []) : 1 ≤ szL xs := by
  cases xs with
  | nil => exact absurd rfl h
  | cons x xs => simp [szL]; omega


lemma szP_pos (kvs : List (String × Val)) (h : kvs ≠ []) : 1 ≤ szP kvs := by
  cases kvs with
  | nil => exact absurd rfl h
  | cons kv kvs => simp [szP]; omega


mutual

lemma szV_le_len : ∀ v : Val, szV v ≤ (renderVal v).length
  | .vnull => by simp [szV, renderVal]
  | .vbool b => by cases b <;> simp [szV, renderVal]
  | .vint i => by
    have h := List.length_pos.mpr (intChars_ne_nil i)
    simp only [szV, renderVal]
    omega
  | .vstr s => by simp [szV, renderVal, renderStr]
  | .varr [] => by simp [szV, szL, renderVal]
  | .varr (x :: xs) => by
    have h := szL_le_len (x :: xs)
    simp only [szV, renderVal, List.length_cons, List.length_append,
      List.length_singleton] at h ⊢
    omega
  | .vobj [] => by simp [szV, szP, renderVal]
  | .vobj (kv :: kvs) => by
    have h := szP_le_len (kv :: kvs)
    simp only [szV, renderVal, List.length_cons, List.length_append,
      List.length_singleton] at h ⊢
    omega

lemma szL_le_len : ∀ xs : List Val, szL xs ≤ (renderItems xs).length + 1
  | [] => by simp [szL, renderItems]
  | [x] => by
    have h := szV_le_len x
    simp only [szL, renderItems] at h ⊢
    omega
  | x :: y :: ys => by
    have h1 := szV_le_len x
    have h2 := szL_le_len (y :: ys)
    simp only [szL, renderItems, List.length_append, List.length_cons] at h1 h2 ⊢
    omega

lemma szP_le_len : ∀ kvs : List (String × Val), szP kvs ≤ (renderEntries kvs).length + 1
  | [] => by simp [szP, renderEntries]
  | [(k, v)] => by
    have h := szV_le_len v
    simp only [szP, renderEntries, List.length_append, List.length_cons] at h ⊢
    omega
  | (k, v) :: e :: kvs => by
    have h1 := szV_le_len v
    have h2 := szP_le_len (e :: kvs)
    simp only [szP, renderEntries, List.length_append, List.length_cons] at h1 h2 ⊢
    omega

end

lemma renderVal_head (v : Val) :
    ∃ c t, renderVal v = c :: t ∧ c ≠ ']' ∧ c ≠ '}' ∧ c ≠ ',' := by
  cases v with
  | vnull => exact ⟨'n', _, rfl, by decide, by decide, by decide⟩
  | vbool b =>
    cases b with
    | false => exact ⟨'f', _, rfl, by decide, by decide, by decide⟩
    | true => exact ⟨'t', _, rfl, by decide, by decide, by decide⟩
  | vint i =>
    by_cases h : i < 0
    · refine ⟨'-', natChars i.natAbs, ?_, by decide, by decide, by decide⟩
      show intChars i = _
      rw [intChars, if_pos h]
    · obtain ⟨d, ds, hnc⟩ : ∃ d ds, natChars i.natAbs = d :: ds := by
        cases hx : natChars i.natAbs with
        | nil => exact absurd hx (natChars_ne_nil _)
        | cons d ds => exact ⟨d, ds, rfl⟩
      have hd : isDigitChar d = true := by
        have hall := natChars_digits i.natAbs
        rw [hnc] at hall
        simp only [List.all_cons, Bool.and_eq_true] at hall
        exact hall.1
      refine ⟨d, ds, ?_, ?_, ?_, ?_⟩
      · show intChars i = _
        rw [intChars, if_neg h, hnc]
      all_goals (intro hc; rw [hc] at hd; exact absurd hd (by decide))
  | vstr s => exact ⟨'"', _, rfl, by decide, by decide, by decide⟩
  | varr xs =>
    cases xs with
    | nil => exact ⟨'[', _, rfl, by decide, by decide, by decide⟩
    | cons x xs => exact ⟨'[', _, rfl, by decide, by decide, by decide⟩
  | vobj kvs =>
    cases kvs with
    | nil => exact ⟨'{', _, rfl, by decide, by decide, by decide⟩
    | cons kv kvs => exact ⟨'{', _, rfl, by decide, by decide, by decide⟩


lemma renderItems_split (x : Val) (xs : List Val) :
    ∃ rest, renderItems (x :: xs) = renderVal x ++ rest := by
  cases xs with
  | nil => exact ⟨[], by simp [renderItems]⟩
  | cons y ys => exact ⟨',' :: renderItems (y :: ys), rfl⟩


lemma renderEntries_head (kv : String × Val) (kvs : List (String × Val)) :
    ∃ t, renderEntries (kv :: kvs) = '"' :: t := by
  obtain ⟨k, v⟩ := kv
  cases kvs with
  | nil =>
    refine ⟨(escChars k.data ++ ['"']) ++ ':' :: renderVal v, ?_⟩
    show renderStr k ++ ':' :: renderVal v = _
    rw [renderStr, List.cons_append]
  | cons e kvs' =>
    refine ⟨(escChars k.data ++ ['"']) ++ ':' :: renderVal v
      ++ ',' :: renderEntries (e :: kvs'), ?_⟩
    show renderStr k ++ ':' :: renderVal v ++ ',' :: renderEntries (e :: kvs') = _
    rw [renderStr, List.cons_append]
    simp [List.append_assoc]


lemma pVal_render_round : ∀ f : Nat,
    (∀ (v : Val) (r : List Char), szV v ≤ f → noDigitStart r = true →
        pVal f (renderVal v ++ r) = some (v, r))
    ∧ (∀ (xs : List Val) (r : List Char), xs ≠ [] → szL xs ≤ f →
        pItems f (renderItems xs ++ ']' :: r) = some (xs, r))
    ∧ (∀ (kvs : List (String × Val)) (r : List Char), kvs ≠ [] → szP kvs ≤ f →
        pEntries f (renderEntries kvs ++ '}' :: r) = some (kvs, r)) := by
  intro f
  induction f with
  | zero =>
    refine ⟨fun v r hsz _ => ?_, fun xs r hne hsz => ?_, fun kvs r hne hsz => ?_⟩
    · exfalso; have := szV_pos v; omega
    · exfalso; have := szL_pos xs hne; omega
    · exfalso; have := szP_pos kvs hne; omega
  | succ f ih =>
    obtain ⟨ihV, ihI, ihE⟩ := ih
    refine ⟨fun v r hsz hr => ?_, fun xs r hne hsz => ?_, fun kvs r hne hsz => ?_⟩
    · cases v with
      | vnull => simp [renderVal, pVal]
      | vbool b => cases b <;> simp [renderVal, pVal]
      | vint i =>
        show pVal (f + 1) (intChars i ++ r) = some (.vint i, r)
        by_cases hneg : i < 0
        · rw [intChars, if_pos hneg, List.cons_append]
          have hstep : pVal (f + 1) ('-' :: (natChars i.natAbs ++ r))
              = (pInt ('-' :: (natChars i.natAbs ++ r))).map
                  (fun p => (Val.vint p.1, p.2)) := rfl
          rw [hstep, pInt_neg_natChars i.natAbs r hr]
          simp only [Option.map_some']
          have hval : -((i.natAbs : Int)) = i := by omega
          rw [hval]
        · rw [intChars, if_neg hneg]
          obtain ⟨d, ds, hnc⟩ : ∃ d ds, natChars i.natAbs = d :: ds := by
            cases hx : natChars i.natAbs with
            | nil => exact absurd hx (natChars_ne_nil _)
            | cons d ds => exact ⟨d, ds, rfl⟩
          have hd : isDigitChar d = true := by
            have hall := natChars_digits i.natAbs
            rw [hnc] at hall
            simp only [List.all_cons, Bool.and_eq_true] at hall
            exact hall.1
          have h1 : d ≠ 'n' := fun hc => absurd (hc ▸ hd) (by decide)
          have h2 : d ≠ 't' := fun hc => absurd (hc ▸ hd) (by decide)
          have h3 : d ≠ 'f' := fun hc => absurd (hc ▸ hd) (by decide)
          have h4 : d ≠ '"' := fun hc => absurd (hc ▸ hd) (by decide)
          have h5 : d ≠ '[' := fun hc => absurd (hc ▸ hd) (by decide)
          have h6 : d ≠ '{' := fun hc => absurd (hc ▸ hd) (by decide)
          rw [hnc, List.cons_append]
          have hstep : pVal (f + 1) (d :: (ds ++ r))
              = (pInt (d :: (ds ++ r))).map (fun p => (Val.vint p.1, p.2)) := by
            simp [pVal, h1, h2, h3, h4, h5, h6]
          rw [hstep, ← List.cons_append, ← hnc, pInt_natChars i.natAbs r hr]
          simp only [Option.map_some']
          have hval : ((i.natAbs : Int)) = i := by omega
          rw [hval]
      | vstr s =>
        show pVal (f + 1) (('"' :: (escChars s.data ++ ['"'])) ++ r) = some (.vstr s, r)
        rw [List.cons_append, List.append_assoc, List.singleton_append]
        show (pStrAux [] (escChars s.data ++ '"' :: r)).map
            (fun p => (Val.vstr ⟨p.1⟩, p.2)) = some (.vstr s, r)
        rw [pStr_renderStr]
        rfl
      | varr xs =>
        cases xs with
        | nil => simp [renderVal, pVal]
        | cons x xs' =>
          show pVal (f + 1) (('[' :: (renderItems (x :: xs') ++ [']'])) ++ r)
              = some (.varr (x :: xs'), r)
          rw [List.cons_append, List.append_assoc, List.singleton_append]
          obtain ⟨rest, hri⟩ := renderItems_split x xs'
          obtain ⟨c, t, hct, hc1, hc2, hc3⟩ := renderVal_head x
          have hhead : (renderItems (x :: xs') ++ ']' :: r).head? ≠ some ']' := by
            rw [hri, hct]
            simp [hc1]
          have hstep : pVal (f + 1) ('[' :: (renderItems (x :: xs') ++ ']' :: r))
              = if (renderItems (x :: xs') ++ ']' :: r).head? = some ']'
                then some (.varr [], (renderItems (x :: xs') ++ ']' :: r).tail)
                else (pItems f (renderItems (x :: xs') ++ ']' :: r)).map
                  (fun p => (Val.varr p.1, p.2)) := rfl
          have hsz' : szL (x :: xs') ≤ f := by
            simp only [szV] at hsz
            omega
          rw [hstep, if_neg hhead, ihI (x :: xs') r (by simp) hsz']
          rfl
      | vobj kvs =>
        cases kvs with
        | nil => simp [renderVal, pVal]
        | cons kv kvs' =>
          show pVal (f + 1) (('{' :: (renderEntries (kv :: kvs') ++ ['}'])) ++ r)
              = some (.vobj (kv :: kvs'), r)
          rw [List.cons_append, List.append_assoc, List.singleton_append]
          obtain ⟨t, ht⟩ := renderEntries_head kv kvs'
          have hhead : (renderEntries (kv :: kvs') ++ '}' :: r).head? ≠ some '}' := by
            rw [ht]
            simp
          have hstep : pVal (f + 1) ('{' :: (renderEntries (kv :: kvs') ++ '}' :: r))
              = if (renderEntries (kv :: kvs') ++ '}' :: r).head? = some '}'
                then some (.vobj [], (renderEntries (kv :: kvs') ++ '}' :: r).tail)
                else (pEntries f (renderEntries (kv :: kvs') ++ '}' :: r)).map
                  (fun p => (Val.vobj p.1, p.2)) := rfl
          have hsz' : szP (kv :: kvs') ≤ f := by
            simp only [szV] at hsz
            omega
          rw [hstep, if_neg hhead, ihE (kv :: kvs') r (by simp) hsz']
          rfl
    · cases xs with
      | nil => exact absurd rfl hne
      | cons x xs' =>
        have hszx : szV x ≤ f := by
          simp only [szL] at hsz
          omega
        cases xs' with
        | nil =>
          show pItems (f + 1) (renderVal x ++ ']' :: r) = some ([x], r)
          have hv := ihV x (']' :: r) hszx (by rfl)
          simp [pItems, hv]
        | cons y ys =>
          show pItems (f + 1) ((renderVal x ++ ',' :: renderItems (y :: ys)) ++ ']' :: r)
              = some (x :: y :: ys, r)
          rw [List.append_assoc, List.cons_append]
          have hv := ihV x (',' :: (renderItems (y :: ys) ++ ']' :: r)) hszx (by rfl)
          have hrec : pItems f (renderItems (y :: ys) ++ ']' :: r) = some (y :: ys, r) := by
            refine ihI (y :: ys) r (by simp) ?_
            simp only [szL] at hsz ⊢
            omega
          simp [pItems, hv, hrec]
    · cases kvs with
      | nil => exact absurd rfl hne
      | cons kv kvs' =>
        obtain ⟨k, v⟩ := kv
        have hszv : szV v ≤ f := by
          simp only [szP] at hsz
          omega
        cases kvs' with
        | nil =>
          show pEntries (f + 1) ((renderStr k ++ ':' :: renderVal v) ++ '}' :: r)
              = some ([(k, v)], r)
          rw [renderStr]
          simp only [List.cons_append, List.append_assoc, List.singleton_append]
          have hk := pStr_renderStr k (':' :: (renderVal v ++ '}' :: r))
          have hv := ihV v ('}' :: r) hszv (by rfl)
          simp [pEntries, hk, hv]
        | cons e kvs'' =>
          show pEntries (f + 1)
              ((renderStr k ++ ':' :: renderVal v ++ ',' :: renderEntries (e :: kvs''))
                ++ '}' :: r)
              = some ((k, v) :: e :: kvs'', r)
          rw [renderStr]
          simp only [List.cons_append, List.append_assoc, List.singleton_append]
          have hk := pStr_renderStr k
            (':' :: (renderVal v ++ ',' :: (renderEntries (e :: kvs'') ++ '}' :: r)))
          have hv := ihV v (',' :: (renderEntries (e :: kvs'') ++ '}' :: r)) hszv (by rfl)
          have hrec : pEntries f (renderEntries (e :: kvs'') ++ '}' :: r)
              = some (e :: kvs'', r) := by
            refine ihE (e :: kvs'') r (by simp) ?_
            simp only [szP] at hsz ⊢
            omega
          simp [pEntries, hk, hv, hrec]


lemma isPrefixOf_append_self : ∀ (x y : List Char), x.isPrefixOf (x ++ y) = true
  | [], _ => by simp [List.isPrefixOf]
  | c :: x, y => by simp [List.isPrefixOf, isPrefixOf_append_self x y]


lemma isSuffixOf_append_self (x y : List Char) : y.isSuffixOf (x ++ y) = true := by
  simp only [List.isSuffixOf, List.reverse_append]
  exact isPrefixOf_append_self y.reverse x.reverse


lemma strEndsWith_append (base suf : String) : strEndsWith (base ++ suf) suf = true := by
  rw [strEndsWith, String.data_append]
  exact isSuffixOf_append_self base.data suf.data


/-- C10.  Inside the `temp_file` context the temp path holds the serialized
document: with `as_json = true` the path carries the `.json` suffix and its
content parses as JSON back to a document equal to the input (serialization
round-trip, for every document); with `as_json = false` the path exists with
the `.yaml` suffix. -/
theorem temp_file_roundtrip_spec (base : String) (d : Val) (fs : FS) :
    lookupFS (temp_file_enter base true d fs) (temp_path base true) = some (printJson d)
    ∧ strEndsWith (temp_path base true) ".json" = true
    ∧ parseJson (printJson d) = some d
    ∧ strEndsWith (temp_path base false) ".yaml" = true
    ∧ lookupFS (temp_file_enter base false d fs) (temp_path base false)
        = some (printYaml d) := by
  refine ⟨by simp [temp_file_enter, lookupFS, serializeDoc],
    strEndsWith_append base ".json", ?_, strEndsWith_append base ".yaml",
    by simp [temp_file_enter, lookupFS, serializeDoc]⟩
  have hmain := (pVal_render_round ((renderVal d).length + 1)).1 d []
    (by have := szV_le_len d; omega) (by rfl)
  rw [List.append_nil] at hmain
  show (match pVal ((renderVal d).length + 1) (renderVal d) with
    | some (v, []) => some v
    | _ => none) = some d
  rw [hmain]


end OASist
